import Mathlib

/-!
Shallow embedding of `src/poke_db/pokemon_csv.py` (the `locai` repository's
single source file) together with proofs about it.

Python dictionaries with string keys are modelled as association lists that
keep insertion order: setting an existing key replaces its value in place,
setting a fresh key appends at the end, lookup scans from the front.  This is
exactly the observable behaviour of a CPython `dict` for the operations the
script uses (no deletions ever happen).
-/

/-- Lookup in a Python-dict model (first binding wins; bindings are unique
by construction since `assocSet` never duplicates a key). -/
def assocGet? {α : Type} : List (String × α) → String → Option α
  | [], _ => none
  | (k, v) :: rest, n => if n = k then some v else assocGet? rest n

/-- Setting `d[k] = v` on a Python-dict model: replace in place if the key exists,
otherwise append the new binding at the end (insertion order). -/
def assocSet {α : Type} : List (String × α) → String → α → List (String × α)
  | [], k, v => [(k, v)]
  | (k', v') :: rest, k, v =>
      if k' = k then (k', v) :: rest else (k', v') :: assocSet rest k v

/-- The value stored per species by `parse_evolution_chain`:
the Python dict `{"from": previous, "to": [...]}`. -/
structure EvoEntry where
  fromSpecies : Option String
  toSpecies : List String
  deriving DecidableEq, Repr

/-- The dict `evo_dict` built by `parse_evolution_chain`. -/
abbrev EvoDict := List (String × EvoEntry)

/-- A node of the evolution-chain tree from the API: a species name
(`current["species"]["name"]`) and the ordered children
(`current["evolves_to"]`). -/
inductive EvoNode : Type where
  | node (species : String) (evolvesTo : List EvoNode)

/-- Projection `current["species"]["name"]`. -/
def EvoNode.species : EvoNode → String
  | .node s _ => s

/-- Projection `current["evolves_to"]`. -/
def EvoNode.evolvesTo : EvoNode → List EvoNode
  | .node _ cs => cs

/-- The line `evo_dict[species_name]["to"].append(evo_name)`: look the key up
and extend its `to` list in place.  In the script the key is always present
when this runs (it was set just before the loop), so the `none` branch is
unreachable. -/
def appendTo (d : EvoDict) (k : String) (name : String) : EvoDict :=
  match assocGet? d k with
  | some e => assocSet d k { e with toSpecies := e.toSpecies ++ [name] }
  | none => d

mutual

/-- The inner function `recurse_chain(current, previous)` of
`parse_evolution_chain`, with the mutated dict threaded explicitly. -/
def recurseChain : EvoNode → Option String → EvoDict → EvoDict
  | .node name children, previous, d =>
      recurseList name children (assocSet d name ⟨previous, []⟩)

/-- The `for evo in current["evolves_to"]` loop of `recurse_chain`: append
the child's name to the current entry's `to` list, then recurse into the
child with the current species as parent. -/
def recurseList : String → List EvoNode → EvoDict → EvoDict
  | _, [], d => d
  | name, c :: cs, d =>
      recurseList name cs (recurseChain c (some name) (appendTo d name c.species))

end

/-- The function `parse_evolution_chain(chain)`: run `recurse_chain` on the root node
`chain["chain"]` starting from the empty dict. -/
def parse_evolution_chain (chain : EvoNode) : EvoDict :=
  recurseChain chain none []

/-- Names of a list of children, `[evo["species"]["name"] for evo in ...]`. -/
def childNames (cs : List EvoNode) : List String :=
  cs.map EvoNode.species

mutual

/-- All nodes of the tree in depth-first preorder (the order
`recurse_chain` visits them). -/
def EvoNode.subtrees : EvoNode → List EvoNode
  | .node s cs => .node s cs :: subtreesList cs

/-- All nodes of a forest in depth-first preorder. -/
def subtreesList : List EvoNode → List EvoNode
  | [] => []
  | c :: cs => c.subtrees ++ subtreesList cs

end

/-- Species names of the tree's nodes in preorder. -/
def EvoNode.names (t : EvoNode) : List String :=
  t.subtrees.map EvoNode.species

/-- Species names of a forest's nodes in preorder. -/
def namesList (cs : List EvoNode) : List String :=
  (subtreesList cs).map EvoNode.species

/-- A chain response is valid when every species name appears on exactly one
node (the source-domain invariant of §3 of the spec; each species belongs to
one point of its chain). -/
def EvoNode.valid (t : EvoNode) : Prop :=
  t.names.Nodup

instance (t : EvoNode) : Decidable t.valid := by
  unfold EvoNode.valid; infer_instance

mutual

/-- Closed form of the dict `recurse_chain` produces for one subtree rooted
with parent `prev`: the root's finished entry followed by the entries of the
children's subtrees in order. -/
def specChain : EvoNode → Option String → EvoDict
  | .node name children, prev =>
      (name, ⟨prev, childNames children⟩) :: specList name children

/-- Closed form of the entries contributed by a list of children of `name`. -/
def specList : String → List EvoNode → EvoDict
  | _, [] => []
  | name, c :: cs => specChain c (some name) ++ specList name cs

end

/-- The mutable state the main loop threads between ids: the global
`evo_cache` dict, plus (as instrumentation for the network) the list of URLs
that have been passed to `fetch_data` for evolution chains, in order. -/
structure CacheState where
  cache : List (String × EvoDict)
  fetchLog : List String
  deriving DecidableEq, Repr

/-- The assignment `evo_cache = \x7b\x7d` at program start. -/
def initCache : CacheState := ⟨[], []⟩

/-- Lines 84–91 of the script: if the chain URL is not in `evo_cache`, fetch
it from the network (`net` stands for the API), parse it and store the
result; otherwise reuse the cached dict.  Returns the dict used for this id
and the updated state. -/
def processChain (net : String → EvoNode) (st : CacheState) (url : String) :
    EvoDict × CacheState :=
  match assocGet? st.cache url with
  | some d => (d, st)
  | none =>
      let d := parse_evolution_chain (net url)
      (d, ⟨assocSet st.cache url d, st.fetchLog ++ [url]⟩)

/-- The evolution-chain part of the whole run viewed on its own: process a
sequence of chain URLs (one per species, in id order) against an initially
empty cache. -/
def runChains (net : String → EvoNode) (urls : List String) : CacheState :=
  urls.foldl (fun st u => (processChain net st u).2) initCache

/-- The dict comprehension
`stats = {s["stat"]["name"]: s["base_stat"] for s in pokemon_data["stats"]}`. -/
def statsDict (l : List (String × Int)) : List (String × Int) :=
  l.foldl (fun d s => assocSet d s.1 s.2) []

/-- Lookup `stats[n]`, made fallible: a missing key is a Python `KeyError`, which
aborts the run; here it is `none`. -/
def getStat (l : List (String × Int)) (n : String) : Option Int :=
  assocGet? (statsDict l) n

/-- The six stat keys the script reads (lines 55–60). -/
def requiredStats : List String :=
  ["hp", "attack", "defense", "special-attack", "special-defense", "speed"]

/-- The six base-stat values the script extracts. -/
structure BaseStats where
  hp : Int
  attack : Int
  defense : Int
  specialAttack : Int
  specialDefense : Int
  speed : Int
  deriving DecidableEq, Repr

/-- Lines 54–60: build the stats dict and read the six required keys; any
missing key raises `KeyError` (modelled as `none`). -/
def extractStats (l : List (String × Int)) : Option BaseStats := do
  let hp ← getStat l "hp"
  let attack ← getStat l "attack"
  let defense ← getStat l "defense"
  let specialAttack ← getStat l "special-attack"
  let specialDefense ← getStat l "special-defense"
  let speed ← getStat l "speed"
  pure ⟨hp, attack, defense, specialAttack, specialDefense, speed⟩

/-- Lines 51–53: `types[0]` raises `IndexError` on an empty list (modelled
as `none`); otherwise the primary type is the first entry and the secondary
type is `types[1] if len(types) > 1 else ""`. -/
def extractTypes : List String → Option (String × String)
  | [] => none
  | t :: rest => some (t, match rest with | [] => "" | s :: _ => s)

/-- One element of `species_data["flavor_text_entries"]`, restricted to the
three fields the script reads. -/
structure FlavorEntry where
  language : String
  version : String
  flavorText : String
  deriving DecidableEq, Repr

/-- The guard on line 74:
`entry["language"]["name"] == "en" and entry["version"]["name"] in ["red", "blue"]`. -/
def isRedBlueEnglish (e : FlavorEntry) : Bool :=
  e.language == "en" && (["red", "blue"] : List String).contains e.version

/-- Line 75: `entry["flavor_text"].replace("\n", " ").replace("\f", "")` —
first turn every newline into a space, then drop every form feed
(`'\x0c'`). -/
def normalizeFlavor (s : String) : String :=
  ⟨(s.data.map fun c => if c = '\n' then ' ' else c).filter fun c => c != '\x0c'⟩

/-- Lines 72–76: `description = ""`, then the first entry passing the guard
sets the description (normalized) and breaks out of the loop. -/
def extractDescription : List FlavorEntry → String
  | [] => ""
  | e :: rest =>
      if isRedBlueEnglish e then normalizeFlavor e.flavorText else extractDescription rest

/-- Line 94: `evo_dict.get(name, {"from": None, "to": []})`. -/
def evoDetails (d : EvoDict) (name : String) : EvoEntry :=
  (assocGet? d name).getD ⟨none, []⟩

/-- Line 95: `evo_details["from"] if evo_details["from"] else ""` — Python
truthiness sends both `None` and the empty string to `""`. -/
def renderFrom (e : EvoEntry) : String :=
  match e.fromSpecies with
  | some s => if s = "" then "" else s
  | none => ""

/-- Line 96: `", ".join(evo_details["to"]) if evo_details["to"] else ""`. -/
def renderTo (e : EvoEntry) : String :=
  if e.toSpecies = [] then "" else String.intercalate ", " e.toSpecies

/-- The fields of a `/pokemon/{id}` payload the script reads.  `types` is
already the projected list `[t["type"]["name"] for t in ...]` and `stats`
the list of `(s["stat"]["name"], s["base_stat"])` pairs. -/
structure PokemonData where
  name : String
  types : List String
  stats : List (String × Int)
  height : Int
  weight : Int
  imageUrl : String
  speciesUrl : String

/-- The fields of a species payload the script reads. -/
structure SpeciesData where
  flavorTextEntries : List FlavorEntry
  evolutionChainUrl : String

/-- The upstream API as a deterministic oracle: what each GET would return
during the run. -/
structure Api where
  pokemon : Nat → PokemonData
  species : String → SpeciesData
  chain : String → EvoNode

/-- The row the script writes for one id (the dict passed to
`writer.writerow`, lines 100–118). -/
structure PokemonRecord where
  id : Nat
  pokedexNumber : Nat
  name : String
  typePrimary : String
  typeSecondary : String
  hp : Int
  attack : Int
  defense : Int
  specialAttack : Int
  specialDefense : Int
  speed : Int
  height : ℚ
  weight : ℚ
  description : String
  evolutionFrom : String
  evolutionTo : String
  imageUrl : String
  deriving DecidableEq, Repr

/-- The body of the loop for one id (lines 42–118): extract the fields from
the Pokémon payload, the description from the species payload, resolve the
evolution chain through the cache, and assemble the record.  A Python
exception (`IndexError` on an empty type list, `KeyError` on a missing
stat) is `none`: the run aborts. -/
def buildRecord (api : Api) (st : CacheState) (id : Nat) :
    Option (PokemonRecord × CacheState) := do
  let p := api.pokemon id
  let ts ← extractTypes p.types
  let bs ← extractStats p.stats
  let sp := api.species p.speciesUrl
  let desc := extractDescription sp.flavorTextEntries
  let (evoDict, st') := processChain api.chain st sp.evolutionChainUrl
  let details := evoDetails evoDict p.name
  pure (⟨id, id, p.name, ts.1, ts.2,
         bs.hp, bs.attack, bs.defense, bs.specialAttack, bs.specialDefense,
         bs.speed, (p.height : ℚ) / 10, (p.weight : ℚ) / 10, desc,
         renderFrom details, renderTo details, p.imageUrl⟩, st')

/-- The iteration space `range(1, 152)`: the ids 1, 2, …, 151 in ascending order. -/
def pokemonIds : List Nat := List.range' 1 151

/-- The main loop over a list of ids, threading the cache state; the first
failing id aborts the whole run. -/
def runGo (api : Api) : List Nat → CacheState → Option (List PokemonRecord)
  | [], _ => some []
  | i :: is, st =>
      match buildRecord api st i with
      | none => none
      | some (r, st') => (runGo api is st').map (r :: ·)

/-- The whole run: all ids of `range(1, 152)` against an empty cache. -/
def runLoop (api : Api) : Option (List PokemonRecord) :=
  runGo api pokemonIds initCache

/-- The `fieldnames` list of lines 31–35. -/
def fieldnames : List String :=
  ["id", "pokedex_number", "name", "type_primary", "type_secondary",
   "hp", "attack", "defense", "special_attack", "special_defense", "speed",
   "height", "weight", "description", "evolution_from", "evolution_to", "image_url"]

/-- One CSV cell before serialization: the script hands `csv.DictWriter`
ints, floats (here exact rationals) and strings. -/
inductive Cell : Type where
  | nat (n : Nat)
  | int (i : Int)
  | rat (q : ℚ)
  | str (s : String)
  deriving DecidableEq, Repr

/-- A call to `DictWriter.writerow` lays the record's values out in `fieldnames`
order. -/
def recordRow (r : PokemonRecord) : List Cell :=
  [.nat r.id, .nat r.pokedexNumber, .str r.name, .str r.typePrimary,
   .str r.typeSecondary, .int r.hp, .int r.attack, .int r.defense,
   .int r.specialAttack, .int r.specialDefense, .int r.speed,
   .rat r.height, .rat r.weight, .str r.description,
   .str r.evolutionFrom, .str r.evolutionTo, .str r.imageUrl]

/-- The call `writer.writeheader()`: the header row carries the field names. -/
def headerRow : List Cell := fieldnames.map Cell.str

/-- The output file as a list of rows: header first, then one row per
record as the loop produces them (`none` when the run aborts). -/
def runCSV (api : Api) : Option (List (List Cell)) :=
  (runLoop api).map fun recs => headerRow :: recs.map recordRow

/-- A concrete three-stage chain used to exercise the definitions. -/
def sampleChain : EvoNode :=
  .node "bulbasaur" [.node "ivysaur" [.node "venusaur" []]]

/-- A concrete Pokémon payload used to exercise the definitions. -/
def samplePokemon : PokemonData :=
  { name := "bulbasaur", types := ["grass", "poison"],
    stats := [("hp", 45), ("attack", 49), ("defense", 49),
              ("special-attack", 65), ("special-defense", 65), ("speed", 45)],
    height := 7, weight := 69, imageUrl := "img", speciesUrl := "species-url" }

/-- A concrete species payload with one qualifying flavor entry. -/
def sampleSpecies : SpeciesData :=
  { flavorTextEntries :=
      [{ language := "fr", version := "red", flavorText := "non" },
       { language := "en", version := "red", flavorText := "A strange\nseed.\x0c" },
       { language := "en", version := "blue", flavorText := "later" }],
    evolutionChainUrl := "chain-url" }

/-- A concrete API oracle answering every request the loop makes. -/
def sampleApi : Api :=
  { pokemon := fun _ => samplePokemon,
    species := fun _ => sampleSpecies,
    chain := fun _ => sampleChain }

/-- The dict `parse_evolution_chain` produces for `sampleChain`. -/
def sampleEvoDict : EvoDict :=
  [("bulbasaur", ⟨none, ["ivysaur"]⟩),
   ("ivysaur", ⟨some "bulbasaur", ["venusaur"]⟩),
   ("venusaur", ⟨some "ivysaur", []⟩)]

/-- The record the loop builds from `sampleApi` for id 1. -/
def sampleRecord : PokemonRecord :=
  ⟨1, 1, "bulbasaur", "grass", "poison", 45, 49, 49, 65, 65, 45,
   (samplePokemon.height : ℚ) / 10, (samplePokemon.weight : ℚ) / 10,
   "A strange seed.", "", "ivysaur", "img"⟩

/-- The cache state after the first id processed against `sampleApi`. -/
def sampleState : CacheState := ⟨[("chain-url", sampleEvoDict)], ["chain-url"]⟩

/-- A payload whose stats list is missing five of the six required keys. -/
def statlessPokemon : PokemonData := { samplePokemon with stats := [("hp", 45)] }

/-- An API oracle serving `statlessPokemon`. -/
def statlessApi : Api := { sampleApi with pokemon := fun _ => statlessPokemon }

/-- A payload with an empty type list. -/
def typelessPokemon : PokemonData := { samplePokemon with types := [] }

/-- An API oracle serving `typelessPokemon`. -/
def typelessApi : Api := { sampleApi with pokemon := fun _ => typelessPokemon }

/-- Run invariant of the evolution cache: every URL was fetched at most
once, a URL is in the fetch log exactly when it has a cache entry, and every
cache entry holds the parse of what the network returns for its URL. -/
def cacheInv (net : String → EvoNode) (st : CacheState) : Prop :=
  (∀ u, st.fetchLog.count u ≤ 1) ∧
  (∀ u, u ∈ st.fetchLog ↔ (assocGet? st.cache u).isSome) ∧
  (∀ u d, assocGet? st.cache u = some d → d = parse_evolution_chain (net u))

theorem assocGet_cons {α : Type} (k : String) (v : α) (d : List (String × α)) (n : String) :
    assocGet? ((k, v) :: d) n = if n = k then some v else assocGet? d n := rfl

theorem assocGet_set {α : Type} (d : List (String × α)) (k n : String) (v : α) :
    assocGet? (assocSet d k v) n = if n = k then some v else assocGet? d n := by
  induction d with
  | nil => rfl
  | cons hd tl ih =>
      obtain ⟨k', v'⟩ := hd
      by_cases hk : k' = k
      · subst hk
        by_cases hn : n = k' <;> simp [assocSet, assocGet_cons, hn]
      · have h1 : assocSet ((k', v') :: tl) k v = (k', v') :: assocSet tl k v := by
          simp [assocSet, hk]
        rw [h1, assocGet_cons, assocGet_cons, ih]
        by_cases hn : n = k'
        · subst hn
          simp [hk]
        · simp [hn]

theorem assocGet_append_some {α : Type} {a : List (String × α)} {n : String} {v : α}
    (h : assocGet? a n = some v) (b : List (String × α)) :
    assocGet? (a ++ b) n = some v := by
  induction a with
  | nil => simp [assocGet?] at h
  | cons hd tl ih =>
      obtain ⟨k, w⟩ := hd
      by_cases hn : n = k
      · simp [assocGet_cons, hn] at h ⊢
        exact h
      · simp [assocGet_cons, hn] at h ⊢
        exact ih h

theorem assocGet_append_none {α : Type} {a : List (String × α)} {n : String}
    (h : assocGet? a n = none) (b : List (String × α)) :
    assocGet? (a ++ b) n = assocGet? b n := by
  induction a with
  | nil => rfl
  | cons hd tl ih =>
      obtain ⟨k, w⟩ := hd
      by_cases hn : n = k
      · simp [assocGet_cons, hn] at h
      · simp [assocGet_cons, hn] at h ⊢
        exact ih h

theorem assocGet_eq_none_iff {α : Type} (d : List (String × α)) (n : String) :
    assocGet? d n = none ↔ n ∉ d.map Prod.fst := by
  induction d with
  | nil => simp [assocGet?]
  | cons hd tl ih =>
      obtain ⟨k, w⟩ := hd
      by_cases hn : n = k <;> simp [assocGet_cons, hn, ih]

theorem assocSet_fresh {α : Type} {d : List (String × α)} {k : String}
    (h : assocGet? d k = none) (v : α) :
    assocSet d k v = d ++ [(k, v)] := by
  induction d with
  | nil => rfl
  | cons hd tl ih =>
      obtain ⟨k', w⟩ := hd
      by_cases hk : k = k' <;> simp [assocGet_cons, hk] at h
      · have hk' : ¬ k' = k := fun hh => hk hh.symm
        simp [assocSet, hk', ih h]

theorem assocGet_mid {α : Type} {d₀ : List (String × α)} (d₁ : List (String × α))
    {k : String} (e : α) (h : assocGet? d₀ k = none) :
    assocGet? (d₀ ++ (k, e) :: d₁) k = some e := by
  rw [assocGet_append_none h, assocGet_cons, if_pos rfl]

theorem assocSet_mid {α : Type} {d₀ : List (String × α)} (d₁ : List (String × α))
    {k : String} (e v : α) (h : assocGet? d₀ k = none) :
    assocSet (d₀ ++ (k, e) :: d₁) k v = d₀ ++ (k, v) :: d₁ := by
  induction d₀ with
  | nil => simp [assocSet]
  | cons hd tl ih =>
      obtain ⟨k', w⟩ := hd
      by_cases hk : k = k' <;> simp [assocGet_cons, hk] at h
      · have hk' : ¬ k' = k := fun hh => hk hh.symm
        simp [assocSet, hk', ih h]

theorem appendTo_mid {d₀ : EvoDict} (d₁ : EvoDict) {k : String} (e : EvoEntry)
    (x : String) (h : assocGet? d₀ k = none) :
    appendTo (d₀ ++ (k, e) :: d₁) k x =
      d₀ ++ (k, { e with toSpecies := e.toSpecies ++ [x] }) :: d₁ := by
  have h1 : assocGet? (d₀ ++ (k, e) :: d₁) k = some e := assocGet_mid d₁ e h
  unfold appendTo
  rw [h1]
  exact assocSet_mid d₁ e _ h

theorem subtrees_node (s : String) (cs : List EvoNode) :
    (EvoNode.node s cs).subtrees = .node s cs :: subtreesList cs := by
  rw [EvoNode.subtrees]

theorem names_node (s : String) (cs : List EvoNode) :
    (EvoNode.node s cs).names = s :: namesList cs := by
  simp [EvoNode.names, namesList, subtrees_node, EvoNode.species]

theorem namesList_nil : namesList [] = [] := rfl

theorem namesList_cons (c : EvoNode) (cs : List EvoNode) :
    namesList (c :: cs) = c.names ++ namesList cs := by
  simp [namesList, subtreesList, EvoNode.names]

theorem self_mem_subtrees (t : EvoNode) : t ∈ t.subtrees := by
  cases t with
  | node s cs => rw [subtrees_node]; exact List.mem_cons_self _ _

theorem species_mem_names (t : EvoNode) : t.species ∈ t.names :=
  List.mem_map_of_mem EvoNode.species (self_mem_subtrees t)

theorem species_mem_namesList {n : EvoNode} {cs : List EvoNode}
    (h : n ∈ subtreesList cs) : n.species ∈ namesList cs :=
  List.mem_map_of_mem EvoNode.species h

theorem mem_subtreesList_of_mem {c : EvoNode} {cs : List EvoNode} (h : c ∈ cs) :
    c ∈ subtreesList cs := by
  induction cs with
  | nil => cases h
  | cons hd tl ih =>
      rw [subtreesList]
      rcases List.mem_cons.mp h with rfl | h'
      · exact List.mem_append_left _ (self_mem_subtrees c)
      · exact List.mem_append_right _ (ih h')

theorem mem_subtrees_of_mem_evolvesTo {c p : EvoNode} (h : c ∈ p.evolvesTo) :
    c ∈ p.subtrees := by
  cases p with
  | node s cs =>
      rw [subtrees_node]
      exact List.mem_cons_of_mem _ (mem_subtreesList_of_mem h)

mutual

theorem mem_subtrees_trans : ∀ (t n m : EvoNode),
    n ∈ t.subtrees → m ∈ n.subtrees → m ∈ t.subtrees
  | .node s cs, n, m, hn, hm => by
      rw [subtrees_node] at hn ⊢
      rcases List.mem_cons.mp hn with rfl | hn'
      · rw [subtrees_node] at hm; exact hm
      · exact List.mem_cons_of_mem _ (mem_subtreesList_trans cs n m hn' hm)

theorem mem_subtreesList_trans : ∀ (cs : List EvoNode) (n m : EvoNode),
    n ∈ subtreesList cs → m ∈ n.subtrees → m ∈ subtreesList cs
  | c :: cs, n, m, hn, hm => by
      rw [subtreesList] at hn ⊢
      rcases List.mem_append.mp hn with hn' | hn'
      · exact List.mem_append_left _ (mem_subtrees_trans c n m hn' hm)
      · exact List.mem_append_right _ (mem_subtreesList_trans cs n m hn' hm)

end

mutual

theorem mem_subtrees_cases : ∀ (t n : EvoNode), n ∈ t.subtrees →
    n = t ∨ ∃ p ∈ t.subtrees, n ∈ p.evolvesTo
  | .node s cs, n, hn => by
      rw [subtrees_node] at hn
      rcases List.mem_cons.mp hn with rfl | hn'
      · exact Or.inl rfl
      · rcases mem_subtreesList_cases cs n hn' with h | ⟨p, hp, hc⟩
        · exact Or.inr ⟨.node s cs, self_mem_subtrees _, h⟩
        · exact Or.inr ⟨p, by rw [subtrees_node]; exact List.mem_cons_of_mem _ hp, hc⟩

theorem mem_subtreesList_cases : ∀ (cs : List EvoNode) (n : EvoNode),
    n ∈ subtreesList cs → n ∈ cs ∨ ∃ p ∈ subtreesList cs, n ∈ p.evolvesTo
  | c :: cs, n, hn => by
      rw [subtreesList] at hn
      rcases List.mem_append.mp hn with hn' | hn'
      · rcases mem_subtrees_cases c n hn' with rfl | ⟨p, hp, hc⟩
        · exact Or.inl (List.mem_cons_self _ _)
        · refine Or.inr ⟨p, ?_, hc⟩
          rw [subtreesList]
          exact List.mem_append_left _ hp
      · rcases mem_subtreesList_cases cs n hn' with h | ⟨p, hp, hc⟩
        · exact Or.inl (List.mem_cons_of_mem _ h)
        · refine Or.inr ⟨p, ?_, hc⟩
          rw [subtreesList]
          exact List.mem_append_right _ hp

end

mutual

theorem specChain_keys : ∀ (t : EvoNode) (prev : Option String),
    (specChain t prev).map Prod.fst = t.names
  | .node s cs, prev => by
      rw [specChain, names_node, List.map_cons, specList_keys s cs]

theorem specList_keys : ∀ (name : String) (cs : List EvoNode),
    (specList name cs).map Prod.fst = namesList cs
  | name, [] => by rw [specList, namesList_nil]; rfl
  | name, c :: cs => by
      rw [specList, namesList_cons, List.map_append,
        specChain_keys c (some name), specList_keys name cs]

end

mutual

theorem recurseChain_eq : ∀ (t : EvoNode) (prev : Option String) (d : EvoDict),
    (∀ n ∈ t.names, assocGet? d n = none) → t.names.Nodup →
    recurseChain t prev d = d ++ specChain t prev
  | .node s cs, prev, d, hfresh, hnd => by
      rw [recurseChain]
      have hs : assocGet? d s = none :=
        hfresh s (by rw [names_node]; exact List.mem_cons_self _ _)
      rw [assocSet_fresh hs, names_node] at *
      have hsn : s ∉ namesList cs := (List.nodup_cons.mp hnd).1
      have hnd' : (namesList cs).Nodup := (List.nodup_cons.mp hnd).2
      have key := recurseList_eq s cs d [] prev [] hs rfl hsn hnd'
        (fun n hn => ⟨hfresh n (List.mem_cons_of_mem _ hn), rfl⟩)
      rw [specChain]
      simpa using key

theorem recurseList_eq : ∀ (name : String) (cs : List EvoNode) (d₀ d₁ : EvoDict)
    (prev : Option String) (acc : List String),
    assocGet? d₀ name = none → assocGet? d₁ name = none →
    name ∉ namesList cs → (namesList cs).Nodup →
    (∀ n ∈ namesList cs, assocGet? d₀ n = none ∧ assocGet? d₁ n = none) →
    recurseList name cs (d₀ ++ (name, ⟨prev, acc⟩) :: d₁) =
      d₀ ++ (name, ⟨prev, acc ++ childNames cs⟩) :: (d₁ ++ specList name cs)
  | name, [], d₀, d₁, prev, acc, h₀, h₁, _, _, _ => by
      rw [recurseList, specList, childNames]
      simp
  | name, c :: cs, d₀, d₁, prev, acc, h₀, h₁, hname, hnd, hfresh => by
      rw [recurseList, appendTo_mid d₁ _ _ h₀]
      rw [namesList_cons] at hname hnd hfresh
      have hcn : c.names.Nodup := (List.nodup_append.mp hnd).1
      have hcsn : (namesList cs).Nodup := (List.nodup_append.mp hnd).2.1
      have hdisj := (List.nodup_append.mp hnd).2.2
      have hname1 : name ∉ c.names := fun h => hname (List.mem_append_left _ h)
      have hname2 : name ∉ namesList cs := fun h => hname (List.mem_append_right _ h)
      have hmid : ∀ n ∈ c.names,
          assocGet? (d₀ ++ (name, EvoEntry.mk prev (acc ++ [c.species])) :: d₁) n = none := by
        intro n hn
        have hz := hfresh n (List.mem_append_left _ hn)
        have hne : ¬ n = name := fun hh => hname1 (hh ▸ hn)
        rw [assocGet_append_none hz.1, assocGet_cons, if_neg hne]
        exact hz.2
      rw [recurseChain_eq c (some name) _ hmid hcn]
      have hassoc :
          (d₀ ++ (name, EvoEntry.mk prev (acc ++ [c.species])) :: d₁) ++ specChain c (some name)
            = d₀ ++ (name, EvoEntry.mk prev (acc ++ [c.species])) ::
                (d₁ ++ specChain c (some name)) := by
        simp
      rw [hassoc]
      have hkeys : ∀ n, n ∉ c.names → assocGet? (specChain c (some name)) n = none := by
        intro n hn
        rw [assocGet_eq_none_iff, specChain_keys]
        exact hn
      have h₁' : assocGet? (d₁ ++ specChain c (some name)) name = none := by
        rw [assocGet_append_none h₁]
        exact hkeys name hname1
      have hfresh' : ∀ n ∈ namesList cs,
          assocGet? d₀ n = none ∧ assocGet? (d₁ ++ specChain c (some name)) n = none := by
        intro n hn
        refine ⟨(hfresh n (List.mem_append_right _ hn)).1, ?_⟩
        rw [assocGet_append_none (hfresh n (List.mem_append_right _ hn)).2]
        exact hkeys n (fun hc => hdisj hc hn)
      rw [recurseList_eq name cs d₀ (d₁ ++ specChain c (some name)) prev
        (acc ++ [c.species]) h₀ h₁' hname2 hcsn hfresh']
      rw [specList]
      simp [childNames]

end

theorem parse_eq_specChain (t : EvoNode) (hnd : t.names.Nodup) :
    parse_evolution_chain t = specChain t none := by
  unfold parse_evolution_chain
  rw [recurseChain_eq t none [] (fun n _ => rfl) hnd]
  rfl

mutual

theorem specChain_lookup : ∀ (t : EvoNode) (prev : Option String), t.names.Nodup →
    assocGet? (specChain t prev) t.species = some ⟨prev, childNames t.evolvesTo⟩ ∧
    ∀ p ∈ t.subtrees, ∀ c ∈ p.evolvesTo,
      assocGet? (specChain t prev) c.species = some ⟨some p.species, childNames c.evolvesTo⟩
  | .node s cs, prev, hnd => by
      rw [names_node] at hnd
      have hsn : s ∉ namesList cs := (List.nodup_cons.mp hnd).1
      have hnd' : (namesList cs).Nodup := (List.nodup_cons.mp hnd).2
      constructor
      · rw [specChain, EvoNode.species, EvoNode.evolvesTo, assocGet_cons, if_pos rfl]
      · intro p hp c hc
        rw [subtrees_node] at hp
        have hlist := specList_lookup s cs hnd'
        rcases List.mem_cons.mp hp with rfl | hp'
        · rw [EvoNode.evolvesTo] at hc
          have hcs : c.species ∈ namesList cs :=
            species_mem_namesList (mem_subtreesList_of_mem hc)
          have hne : ¬ c.species = s := fun h => hsn (h ▸ hcs)
          rw [specChain, assocGet_cons, if_neg hne, EvoNode.species]
          exact hlist.1 c hc
        · have hcsub : c ∈ subtreesList cs :=
            mem_subtreesList_trans cs p c hp' (mem_subtrees_of_mem_evolvesTo hc)
          have hcs : c.species ∈ namesList cs := species_mem_namesList hcsub
          have hne : ¬ c.species = s := fun h => hsn (h ▸ hcs)
          rw [specChain, assocGet_cons, if_neg hne]
          exact hlist.2 p hp' c hc

theorem specList_lookup : ∀ (name : String) (cs : List EvoNode), (namesList cs).Nodup →
    (∀ c ∈ cs, assocGet? (specList name cs) c.species =
        some ⟨some name, childNames c.evolvesTo⟩) ∧
    ∀ p ∈ subtreesList cs, ∀ c ∈ p.evolvesTo,
      assocGet? (specList name cs) c.species = some ⟨some p.species, childNames c.evolvesTo⟩
  | name, [], _ => by
      constructor
      · intro c hc; cases hc
      · intro p hp; cases hp
  | name, c :: cs, hnd => by
      rw [namesList_cons] at hnd
      have hcn : c.names.Nodup := (List.nodup_append.mp hnd).1
      have hcsn : (namesList cs).Nodup := (List.nodup_append.mp hnd).2.1
      have hdisj := (List.nodup_append.mp hnd).2.2
      have hchain := specChain_lookup c (some name) hcn
      have hlist := specList_lookup name cs hcsn
      have hskip : ∀ n, n ∈ namesList cs →
          assocGet? (specList name (c :: cs)) n = assocGet? (specList name cs) n := by
        intro n hn
        rw [specList]
        refine assocGet_append_none ?_ _
        rw [assocGet_eq_none_iff, specChain_keys]
        exact fun hmem => hdisj hmem hn
      constructor
      · intro c' hc'
        rcases List.mem_cons.mp hc' with rfl | hc''
        · rw [specList]
          exact assocGet_append_some hchain.1 _
        · rw [hskip c'.species (species_mem_namesList (mem_subtreesList_of_mem hc''))]
          exact hlist.1 c' hc''
      · intro p hp cc hcc
        rw [subtreesList] at hp
        rcases List.mem_append.mp hp with hp' | hp'
        · rw [specList]
          exact assocGet_append_some (hchain.2 p hp' cc hcc) _
        · have hsub : cc ∈ subtreesList cs :=
            mem_subtreesList_trans cs p cc hp' (mem_subtrees_of_mem_evolvesTo hcc)
          rw [hskip cc.species (species_mem_namesList hsub)]
          exact hlist.2 p hp' cc hcc

end

/-- C1: on a valid chain tree the parser's dict has exactly the preorder
species names as keys (so every node is visited exactly once), and each
node's `to` entry lists its immediate children's names in source order. -/
theorem parse_visits_once_and_children (t : EvoNode) (h : t.valid) :
    (parse_evolution_chain t).map Prod.fst = t.names ∧
    ∀ n ∈ t.subtrees,
      (assocGet? (parse_evolution_chain t) n.species).map EvoEntry.toSpecies =
        some (childNames n.evolvesTo) := by
  have hnd : t.names.Nodup := h
  rw [parse_eq_specChain t hnd]
  refine ⟨specChain_keys t none, ?_⟩
  intro n hn
  rcases mem_subtrees_cases t n hn with rfl | ⟨p, hp, hc⟩
  · rw [(specChain_lookup n none hnd).1]
    rfl
  · rw [(specChain_lookup t none hnd).2 p hp n hc]
    rfl

/-- C1 witness: the bulbasaur chain is valid and the theorem applies to it. -/
theorem parse_visits_once_and_children_witness :
    sampleChain.valid ∧
    ((parse_evolution_chain sampleChain).map Prod.fst = sampleChain.names ∧
      ∀ n ∈ sampleChain.subtrees,
        (assocGet? (parse_evolution_chain sampleChain) n.species).map EvoEntry.toSpecies =
          some (childNames n.evolvesTo)) :=
  ⟨by decide, parse_visits_once_and_children sampleChain (by decide)⟩

/-- C2: on a valid chain tree the root's `from` entry is `None`, and each
non-root node's `from` entry is its parent's species name. -/
theorem parse_from_parent (t : EvoNode) (h : t.valid) :
    (assocGet? (parse_evolution_chain t) t.species).map EvoEntry.fromSpecies = some none ∧
    ∀ p ∈ t.subtrees, ∀ c ∈ p.evolvesTo,
      (assocGet? (parse_evolution_chain t) c.species).map EvoEntry.fromSpecies =
        some (some p.species) := by
  have hnd : t.names.Nodup := h
  rw [parse_eq_specChain t hnd]
  constructor
  · rw [(specChain_lookup t none hnd).1]
    rfl
  · intro p hp c hc
    rw [(specChain_lookup t none hnd).2 p hp c hc]
    rfl

/-- C2 witness: the theorem applied to the bulbasaur chain. -/
theorem parse_from_parent_witness :
    sampleChain.valid ∧
    ((assocGet? (parse_evolution_chain sampleChain) sampleChain.species).map
        EvoEntry.fromSpecies = some none ∧
      ∀ p ∈ sampleChain.subtrees, ∀ c ∈ p.evolvesTo,
        (assocGet? (parse_evolution_chain sampleChain) c.species).map EvoEntry.fromSpecies =
          some (some p.species)) :=
  ⟨by decide, parse_from_parent sampleChain (by decide)⟩

theorem processChain_cached (net : String → EvoNode) (st : CacheState) (url : String)
    (d : EvoDict) (h : assocGet? st.cache url = some d) :
    processChain net st url = (d, st) := by
  unfold processChain
  rw [h]

theorem processChain_mono (net : String → EvoNode) (st : CacheState) (u k : String)
    (d : EvoDict) (h : assocGet? st.cache k = some d) :
    assocGet? ((processChain net st u).2).cache k = some d := by
  rcases hc : assocGet? st.cache u with _ | e
  · simp only [processChain, hc]
    rw [assocGet_set]
    have hne : ¬ k = u := fun hh => by rw [hh, hc] at h; cases h
    rw [if_neg hne]
    exact h
  · simp only [processChain, hc]
    exact h

theorem cacheInv_init (net : String → EvoNode) : cacheInv net initCache := by
  refine ⟨fun u => by simp [initCache], fun u => by simp [initCache, assocGet?], ?_⟩
  intro u d h
  simp [initCache, assocGet?] at h

theorem cacheInv_step (net : String → EvoNode) (st : CacheState) (u : String)
    (h : cacheInv net st) : cacheInv net (processChain net st u).2 := by
  obtain ⟨hcount, hmem, hval⟩ := h
  rcases hc : assocGet? st.cache u with _ | e
  · simp only [processChain, hc]
    refine ⟨?_, ?_, ?_⟩
    · intro v
      rw [List.count_append]
      by_cases hv : v = u
      · subst hv
        have hnot : v ∉ st.fetchLog := fun hin => by
          have hs := (hmem v).mp hin
          rw [hc] at hs
          simp at hs
        rw [List.count_eq_zero.mpr hnot]
        simp
      · have hz : List.count v [u] = 0 := by
          rw [List.count_eq_zero]
          simp [hv]
        rw [hz]
        simpa using hcount v
    · intro v
      rw [List.mem_append, assocGet_set]
      by_cases hv : v = u
      · subst hv
        simp
      · simp [hv, hmem v]
    · intro v d hd
      rw [assocGet_set] at hd
      by_cases hv : v = u
      · rw [if_pos hv] at hd
        rw [hv]
        exact (Option.some.injEq _ _).mp hd.symm ▸ rfl
      · rw [if_neg hv] at hd
        exact hval v d hd
  · simp only [processChain, hc]
    exact ⟨hcount, hmem, hval⟩

theorem foldl_cacheInv (net : String → EvoNode) (urls : List String) :
    ∀ st, cacheInv net st →
      cacheInv net (urls.foldl (fun st u => (processChain net st u).2) st) := by
  induction urls with
  | nil => exact fun st h => h
  | cons v vs ih =>
      intro st h
      rw [List.foldl_cons]
      exact ih _ (cacheInv_step net st v h)

theorem foldl_cache_mono (net : String → EvoNode) (urls : List String) :
    ∀ st (k : String) (d : EvoDict), assocGet? st.cache k = some d →
      assocGet? ((urls.foldl (fun st u => (processChain net st u).2) st).cache) k = some d := by
  induction urls with
  | nil => exact fun st k d h => h
  | cons v vs ih =>
      intro st k d h
      rw [List.foldl_cons]
      exact ih _ k d (processChain_mono net st v k d h)

theorem foldl_cache_lookup (net : String → EvoNode) (urls : List String) :
    ∀ st, cacheInv net st → ∀ u ∈ urls,
      assocGet? ((urls.foldl (fun st u => (processChain net st u).2) st).cache) u =
        some (parse_evolution_chain (net u)) := by
  induction urls with
  | nil => intro st _ u hu; cases hu
  | cons v vs ih =>
      intro st hinv u hu
      rw [List.foldl_cons]
      rcases List.mem_cons.mp hu with rfl | hu'
      · have hstep : assocGet? ((processChain net st u).2).cache u =
            some (parse_evolution_chain (net u)) := by
          rcases hc : assocGet? st.cache u with _ | e
          · simp only [processChain, hc]
            rw [assocGet_set, if_pos rfl]
          · simp only [processChain, hc]
            rw [hinv.2.2 u e hc]
        exact foldl_cache_mono net vs _ u _ hstep
      · exact ih _ (cacheInv_step net st v hinv) u hu'

/-- C3: across a run, each distinct chain URL is fetched at most once; the
first lookup stores the parsed mapping of what the network returns, a lookup
that hits the cache returns the stored mapping with no state change (hence
no network call), and cache entries persist unchanged as the run goes on. -/
theorem evo_cache_fetch_once (net : String → EvoNode) (urls : List String) :
    (∀ url, (runChains net urls).fetchLog.count url ≤ 1) ∧
    (∀ url ∈ urls, assocGet? (runChains net urls).cache url =
        some (parse_evolution_chain (net url))) ∧
    (∀ st url d, assocGet? st.cache url = some d → processChain net st url = (d, st)) ∧
    (∀ more url d, assocGet? (runChains net urls).cache url = some d →
        assocGet? (runChains net (urls ++ more)).cache url = some d) := by
  have hinv := foldl_cacheInv net urls initCache (cacheInv_init net)
  refine ⟨fun url => hinv.1 url, ?_, ?_, ?_⟩
  · exact fun url hu => foldl_cache_lookup net urls initCache (cacheInv_init net) url hu
  · exact fun st url d h => processChain_cached net st url d h
  · intro more url d h
    unfold runChains at h ⊢
    rw [List.foldl_append]
    exact foldl_cache_mono net more _ url d h

/-- C3 witness: a run that looks the same chain URL up twice. -/
theorem evo_cache_fetch_once_witness :
    ("chain-url" ∈ ["chain-url", "chain-url"]) ∧
    assocGet? (runChains sampleApi.chain ["chain-url", "chain-url"]).cache "chain-url" =
      some (parse_evolution_chain (sampleApi.chain "chain-url")) ∧
    (runChains sampleApi.chain ["chain-url", "chain-url"]).fetchLog.count "chain-url" ≤ 1 :=
  ⟨by decide,
    (evo_cache_fetch_once sampleApi.chain ["chain-url", "chain-url"]).2.1 "chain-url" (by decide),
    (evo_cache_fetch_once sampleApi.chain ["chain-url", "chain-url"]).1 "chain-url"⟩

theorem buildRecord_none_types (api : Api) (st : CacheState) (id : Nat)
    (h : extractTypes (api.pokemon id).types = none) : buildRecord api st id = none := by
  simp [buildRecord, h]

theorem buildRecord_none_stats (api : Api) (st : CacheState) (id : Nat)
    (h : extractStats (api.pokemon id).stats = none) : buildRecord api st id = none := by
  rcases hts : extractTypes (api.pokemon id).types with _ | ts <;>
    simp [buildRecord, hts, h]

theorem buildRecord_some (api : Api) (st : CacheState) (id : Nat) (r : PokemonRecord)
    (st' : CacheState) (h : buildRecord api st id = some (r, st')) :
    r.id = id ∧ r.pokedexNumber = id ∧
    r.height = ((api.pokemon id).height : ℚ) / 10 ∧
    r.weight = ((api.pokemon id).weight : ℚ) / 10 := by
  rcases hts : extractTypes (api.pokemon id).types with _ | ts
  · rw [buildRecord_none_types api st id hts] at h
    cases h
  rcases hbs : extractStats (api.pokemon id).stats with _ | bs
  · rw [buildRecord_none_stats api st id hbs] at h
    cases h
  simp only [buildRecord, hts, hbs, Option.bind_some, Option.some.injEq,
    Option.bind_eq_bind, Prod.mk.injEq] at h
  obtain ⟨rfl, rfl⟩ := h
  exact ⟨rfl, rfl, rfl, rfl⟩

/-- C4: whenever the loop body succeeds, the record's height and weight are
exactly the raw payload values divided by ten. -/
theorem height_weight_div_ten (api : Api) (st : CacheState) (id : Nat)
    (r : PokemonRecord) (st' : CacheState) (h : buildRecord api st id = some (r, st')) :
    r.height = ((api.pokemon id).height : ℚ) / 10 ∧
    r.weight = ((api.pokemon id).weight : ℚ) / 10 :=
  ⟨(buildRecord_some api st id r st' h).2.2.1, (buildRecord_some api st id r st' h).2.2.2⟩

/-- C4 witness: raw height 7 gives 7/10 = 0.7, raw weight 69 gives 69/10 = 6.9. -/
theorem height_weight_div_ten_witness :
    buildRecord sampleApi initCache 1 = some (sampleRecord, sampleState) ∧
    (sampleRecord.height = ((sampleApi.pokemon 1).height : ℚ) / 10 ∧
      sampleRecord.weight = ((sampleApi.pokemon 1).weight : ℚ) / 10) ∧
    sampleRecord.height = 7 / 10 ∧ sampleRecord.weight = 69 / 10 :=
  ⟨by rfl, height_weight_div_ten sampleApi initCache 1 sampleRecord sampleState (by rfl),
    by norm_num [sampleRecord, samplePokemon], by norm_num [sampleRecord, samplePokemon]⟩

theorem statsDict_fold_none : ∀ (l : List (String × Int)) (n : String)
    (d : List (String × Int)), (∀ s ∈ l, s.1 ≠ n) → assocGet? d n = none →
    assocGet? (l.foldl (fun d s => assocSet d s.1 s.2) d) n = none
  | [], _, _, _, hd => hd
  | s :: ss, n, d, h, hd => by
      rw [List.foldl_cons]
      refine statsDict_fold_none ss n _ (fun x hx => h x (List.mem_cons_of_mem _ hx)) ?_
      rw [assocGet_set, if_neg (fun hh => (h s (List.mem_cons_self _ _)) hh.symm)]
      exact hd

theorem getStat_none (l : List (String × Int)) (n : String)
    (h : ∀ s ∈ l, s.1 ≠ n) : getStat l n = none :=
  statsDict_fold_none l n [] h rfl

theorem extractStats_none_of_missing (l : List (String × Int))
    (h : ∃ n ∈ requiredStats, ∀ s ∈ l, s.1 ≠ n) : extractStats l = none := by
  obtain ⟨n, hn, hmiss⟩ := h
  have hz : getStat l n = none := getStat_none l n hmiss
  have hb : ∀ (x : Option Int) (f : Int → Option BaseStats),
      (∀ a, f a = none) → x.bind f = none := by
    intro x f hf
    cases x <;> simp [hf]
  simp only [requiredStats, List.mem_cons, List.not_mem_nil, or_false] at hn
  unfold extractStats
  rcases hn with rfl | rfl | rfl | rfl | rfl | rfl
  · rw [hz]; rfl
  · exact hb _ _ fun a => by rw [hz]; rfl
  · exact hb _ _ fun a => hb _ _ fun b => by rw [hz]; rfl
  · exact hb _ _ fun a => hb _ _ fun b => hb _ _ fun c => by rw [hz]; rfl
  · exact hb _ _ fun a => hb _ _ fun b => hb _ _ fun c => hb _ _ fun d => by rw [hz]; rfl
  · exact hb _ _ fun a => hb _ _ fun b => hb _ _ fun c => hb _ _ fun d =>
      hb _ _ fun e => by rw [hz]; rfl

/-- C6: a required stat name with no entry in the payload's stats list makes
stat extraction fail and the whole loop body abort (no record, hence no
null/zero value is ever written). -/
theorem missing_stat_aborts (api : Api) (st : CacheState) (id : Nat)
    (h : ∃ n ∈ requiredStats, ∀ s ∈ (api.pokemon id).stats, s.1 ≠ n) :
    extractStats (api.pokemon id).stats = none ∧ buildRecord api st id = none := by
  have h1 := extractStats_none_of_missing _ h
  exact ⟨h1, buildRecord_none_stats api st id h1⟩

/-- C6 witness: a payload whose stats list only has "hp". -/
theorem missing_stat_aborts_witness :
    (∃ n ∈ requiredStats, ∀ s ∈ (statlessApi.pokemon 1).stats, s.1 ≠ n) ∧
    extractStats (statlessApi.pokemon 1).stats = none ∧
    buildRecord statlessApi initCache 1 = none :=
  ⟨by decide, missing_stat_aborts statlessApi initCache 1 (by decide)⟩

/-- C10: an empty type list aborts the loop body at `types[0]`; a non-empty
one gives the first name as primary type and the second name (or `""`) as
secondary type. -/
theorem empty_types_aborts (api : Api) (st : CacheState) (id : Nat) :
    extractTypes [] = none ∧
    (∀ t, extractTypes [t] = some (t, "")) ∧
    (∀ t s rest, extractTypes (t :: s :: rest) = some (t, s)) ∧
    ((api.pokemon id).types = [] → buildRecord api st id = none) := by
  refine ⟨rfl, fun t => rfl, fun t s rest => rfl, ?_⟩
  intro h
  apply buildRecord_none_types
  rw [h]
  rfl

/-- C10 witness: a payload with an empty type list. -/
theorem empty_types_aborts_witness :
    ((typelessApi.pokemon 1).types = []) ∧ buildRecord typelessApi initCache 1 = none :=
  ⟨rfl, (empty_types_aborts typelessApi initCache 1).2.2.2 rfl⟩

/-- C5: the description is the normalized flavor text of the first entry in
list order whose language is "en" and version "red" or "blue"; when no entry
qualifies it is the empty string (and extraction is total, so the run goes
on); normalization leaves no newline and no form feed behind. -/
theorem description_first_match :
    (∀ (pre : List FlavorEntry) (e : FlavorEntry) (post : List FlavorEntry),
      (∀ x ∈ pre, isRedBlueEnglish x = false) → isRedBlueEnglish e = true →
      extractDescription (pre ++ e :: post) = normalizeFlavor e.flavorText) ∧
    (∀ entries : List FlavorEntry, (∀ x ∈ entries, isRedBlueEnglish x = false) →
      extractDescription entries = "") ∧
    (∀ s : String, '\n' ∉ (normalizeFlavor s).data ∧ '\x0c' ∉ (normalizeFlavor s).data) := by
  refine ⟨?_, ?_, ?_⟩
  · intro pre e post hpre he
    induction pre with
    | nil => simp [extractDescription, he]
    | cons x xs ih =>
        have hx := hpre x (List.mem_cons_self _ _)
        rw [List.cons_append, extractDescription, hx]
        simp only [Bool.false_eq_true, if_false]
        exact ih fun y hy => hpre y (List.mem_cons_of_mem _ hy)
  · intro entries h
    induction entries with
    | nil => rfl
    | cons x xs ih =>
        have hx := h x (List.mem_cons_self _ _)
        rw [extractDescription, hx]
        simp only [Bool.false_eq_true, if_false]
        exact ih fun y hy => h y (List.mem_cons_of_mem _ hy)
  · intro s
    constructor
    · intro hmem
      simp only [normalizeFlavor, List.mem_filter, List.mem_map] at hmem
      obtain ⟨⟨a, _, hfa⟩, _⟩ := hmem
      by_cases ha : a = '\n' <;> simp [ha] at hfa
    · intro hmem
      simp only [normalizeFlavor, List.mem_filter] at hmem
      obtain ⟨_, hbad⟩ := hmem
      simp at hbad

/-- C5 witness: a non-qualifying French entry is skipped, the first English
red entry (with embedded newline and form feed) wins over a later English
blue entry. -/
theorem description_first_match_witness :
    (∀ x ∈ [FlavorEntry.mk "fr" "red" "non"], isRedBlueEnglish x = false) ∧
    isRedBlueEnglish (FlavorEntry.mk "en" "red" "A strange\nseed.\x0c") = true ∧
    extractDescription ([FlavorEntry.mk "fr" "red" "non"] ++
        FlavorEntry.mk "en" "red" "A strange\nseed.\x0c" ::
          [FlavorEntry.mk "en" "blue" "later"]) =
      normalizeFlavor "A strange\nseed.\x0c" ∧
    normalizeFlavor "A strange\nseed.\x0c" = "A strange seed." :=
  ⟨by decide, by decide,
    description_first_match.1 [FlavorEntry.mk "fr" "red" "non"]
      (FlavorEntry.mk "en" "red" "A strange\nseed.\x0c")
      [FlavorEntry.mk "en" "blue" "later"] (by decide) (by decide),
    by decide⟩

/-- C7: a species name absent from the resolved evolution dict defaults to
`{"from": None, "to": []}`, which renders as two empty strings — record
building does not fail. -/
theorem absent_species_defaults (d : EvoDict) (name : String)
    (h : assocGet? d name = none) :
    evoDetails d name = ⟨none, []⟩ ∧
    renderFrom (evoDetails d name) = "" ∧ renderTo (evoDetails d name) = "" := by
  have h1 : evoDetails d name = ⟨none, []⟩ := by
    rw [evoDetails, h]
    rfl
  refine ⟨h1, ?_, ?_⟩ <;> rw [h1] <;> rfl

/-- C7 witness: "mew" is not in the bulbasaur chain's dict. -/
theorem absent_species_defaults_witness :
    assocGet? sampleEvoDict "mew" = none ∧
    (evoDetails sampleEvoDict "mew" = ⟨none, []⟩ ∧
      renderFrom (evoDetails sampleEvoDict "mew") = "" ∧
      renderTo (evoDetails sampleEvoDict "mew") = "") :=
  ⟨by decide, absent_species_defaults sampleEvoDict "mew" (by decide)⟩

/-- C8: `evolution_to` is the successor names joined by ", " in dict order
(empty string for an empty list) and `evolution_from` is the predecessor
name, defaulting to the empty string when absent. -/
theorem render_evolution_fields (e : EvoEntry) :
    renderTo e = String.intercalate ", " e.toSpecies ∧
    renderFrom e = e.fromSpecies.getD "" ∧
    (e.toSpecies = [] → renderTo e = "") ∧
    (e.fromSpecies = none → renderFrom e = "") := by
  refine ⟨?_, ?_, ?_, ?_⟩
  · rw [renderTo]
    by_cases h : e.toSpecies = []
    · rw [if_pos h, h]
      rfl
    · rw [if_neg h]
  · rcases hf : e.fromSpecies with _ | s
    · simp [renderFrom, hf]
    · by_cases hs : s = "" <;> simp [renderFrom, hf, hs]
  · intro h
    rw [renderTo, if_pos h]
  · intro h
    simp [renderFrom, h]

/-- C8 witness: the theorem applied to the empty entry and to a two-successor
entry. -/
theorem render_evolution_fields_witness :
    ((EvoEntry.mk none []).toSpecies = [] ∧ (EvoEntry.mk none []).fromSpecies = none) ∧
    renderTo (EvoEntry.mk none []) = "" ∧
    renderFrom (EvoEntry.mk none []) = "" ∧
    renderTo (EvoEntry.mk (some "poliwhirl") ["poliwrath", "politoed"]) =
      "poliwrath, politoed" :=
  ⟨⟨rfl, rfl⟩, (render_evolution_fields ⟨none, []⟩).2.2.1 rfl,
    (render_evolution_fields ⟨none, []⟩).2.2.2 rfl,
    by rw [(render_evolution_fields ⟨some "poliwhirl", ["poliwrath", "politoed"]⟩).1]; rfl⟩

theorem runGo_ids (api : Api) : ∀ (ids : List Nat) (st : CacheState)
    (recs : List PokemonRecord), runGo api ids st = some recs →
    recs.map PokemonRecord.id = ids
  | [], st, recs, h => by
      rw [runGo] at h
      obtain rfl : recs = [] := (Option.some.inj h).symm
      rfl
  | i :: is, st, recs, h => by
      rw [runGo] at h
      rcases hb : buildRecord api st i with _ | ⟨r, st'⟩
      · rw [hb] at h
        cases h
      · rw [hb] at h
        dsimp only at h
        rcases hg : runGo api is st' with _ | recs'
        · rw [hg] at h
          cases h
        · rw [hg] at h
          simp only [Option.map_some', Option.some.injEq] at h
          obtain rfl : recs = r :: recs' := h.symm
          rw [List.map_cons, (buildRecord_some api st i r st' hb).1,
            runGo_ids api is st' recs' hg]

/-- C9: on a successful run the CSV is the fixed header row followed by one
data row per record; there are exactly 151 records, whose ids are exactly
1, 2, …, 151 in ascending order (the embedding of `range(1, 152)`). -/
theorem csv_header_and_rows (api : Api) (recs : List PokemonRecord)
    (h : runLoop api = some recs) :
    runCSV api = some (headerRow :: recs.map recordRow) ∧
    headerRow = fieldnames.map Cell.str ∧
    fieldnames = ["id", "pokedex_number", "name", "type_primary", "type_secondary",
      "hp", "attack", "defense", "special_attack", "special_defense", "speed",
      "height", "weight", "description", "evolution_from", "evolution_to", "image_url"] ∧
    recs.map PokemonRecord.id = pokemonIds ∧
    pokemonIds = List.range' 1 151 ∧
    recs.length = 151 := by
  have hids : recs.map PokemonRecord.id = pokemonIds :=
    runGo_ids api pokemonIds initCache recs h
  refine ⟨?_, rfl, rfl, hids, rfl, ?_⟩
  · rw [runCSV, h]
    rfl
  · have hlen := congrArg List.length hids
    simpa [pokemonIds] using hlen

set_option maxRecDepth 100000 in
/-- C9 witness: `sampleApi` answers every request, so the whole 151-id run
succeeds and the theorem applies to its record list. -/
theorem csv_header_and_rows_witness :
    runLoop sampleApi = some ((runLoop sampleApi).getD []) ∧
    runCSV sampleApi =
      some (headerRow :: ((runLoop sampleApi).getD []).map recordRow) ∧
    ((runLoop sampleApi).getD []).length = 151 :=
  ⟨by rfl, (csv_header_and_rows sampleApi ((runLoop sampleApi).getD []) (by rfl)).1,
    (csv_header_and_rows sampleApi ((runLoop sampleApi).getD []) (by rfl)).2.2.2.2.2⟩
